import Mathlib

/-!
Verification development for the DRHP PDF splitter (`src/app.py`, the active
code at the bottom of the file; the commented-out block at the top is an older
draft and is not modelled).  Text is modelled as `List Char`, Python integers
as `Int`, and caught exceptions as `Except Unit` values.  Every definition is
a direct translation of the corresponding Python function; definitions whose
doc comment says "spec words" restate the specification instead and are used
only for refinement comparisons.
-/

namespace DRHP

/-! ### String primitives -/

/-- Python `str.strip()`: drop whitespace from both ends (ASCII whitespace
model via `Char.isWhitespace`). -/
def pyStrip (l : List Char) : List Char :=
  ((l.dropWhile Char.isWhitespace).reverse.dropWhile Char.isWhitespace).reverse

/-- Does the list start with a run of two dots?  This is the test for the
start of a match of the regex `\.{2,}` in `clean_text`. -/
def twoDots : List Char → Bool
  | c :: d :: _ => decide (c = '.' ∧ d = '.')
  | _ => false

/-- Python `"pat" in s` substring test: does `pat` occur at the front? -/
def startsWith : List Char → List Char → Bool
  | [], _ => true
  | _ :: _, [] => false
  | p :: ps, c :: cs => decide (p = c) && startsWith ps cs

/-- Python `"pat" in s` substring test (scan every suffix). -/
def containsSub (pat : List Char) : List Char → Bool
  | [] => startsWith pat []
  | c :: rest => startsWith pat (c :: rest) || containsSub pat rest

/-- The global substitution `re.sub(r'\.{2,}.*', '', txt)` of `clean_text`
as a left-to-right scan.  Mode `false` looks for the start of a match
(`\.{2,}`); mode `true` consumes the `.*` part, i.e. everything up to but
not including the next newline (`.` does not match `\n` and `re.sub` then
resumes scanning there). -/
def subDotsAux : Bool → List Char → List Char
  | _, [] => []
  | true, c :: rest =>
    if c = '\n' then '\n' :: subDotsAux false rest else subDotsAux true rest
  | false, [c] => [c]
  | false, c :: d :: rest =>
    if c = '.' ∧ d = '.' then subDotsAux true rest
    else c :: subDotsAux false (d :: rest)

/-- `re.sub(r'\.{2,}.*', '', txt)` (the regex consumes every further dot of
the run, but those are consumed by the `.*` scan anyway). -/
def subDots (l : List Char) : List Char := subDotsAux false l

/-- `clean_text` from `src/app.py`: `re.sub(r'\.{2,}.*', '', txt).strip()`. -/
def clean_text (l : List Char) : List Char := pyStrip (subDots l)

/-! ### Spec-side companions for `clean_text` (used for claim C6) -/

/-- Cut a line at the first run of two or more dots, keeping the part before
it. -/
def cutLine : List Char → List Char
  | [] => []
  | [c] => [c]
  | c :: d :: rest =>
    if c = '.' ∧ d = '.' then [] else c :: cutLine (d :: rest)

/-- Split on newline characters, Python `str.split("\n")` style (the result
is never empty). -/
def splitLines : List Char → List (List Char)
  | [] => [[]]
  | c :: rest =>
    if c = '\n' then [] :: splitLines rest
    else
      match splitLines rest with
      | [] => [[c]]
      | l :: ls => (c :: l) :: ls

/-- Join lines with newline separators. -/
def joinLines : List (List Char) → List Char
  | [] => []
  | [l] => l
  | l :: ls => l ++ '\n' :: joinLines ls

/-- Spec words (claim C6): strip everything from the first run of
two-or-more dots onward — to the very end of the string — then trim. -/
def specCleanText (l : List Char) : List Char := pyStrip (cutLine l)

/-- Amended spec words (claim C6): within each line, strip everything from
the first run of two-or-more dots to the end of that line, then trim. -/
def perLineCleanText (l : List Char) : List Char :=
  pyStrip (joinLines ((splitLines l).map cutLine))

/-! ### Entry classification (`src/app.py` lines 617-629) -/

/-- Python `x.upper()`, per character (basic latin, as `Char.toUpper`). -/
def pyUpper (l : List Char) : List Char := l.map Char.toUpper

/-- The `"SECTION"` literal. -/
def sectionWord : List Char := ['S', 'E', 'C', 'T', 'I', 'O', 'N']

/-- Row classification (line 618): `"Section" if "SECTION" in x.upper()
else "Subject"`. -/
def isSectionText (l : List Char) : Bool := containsSub sectionWord (pyUpper l)

/-- Case-insensitive literal match: consume `ps` from the front of the text,
returning the rest, or `none` when the text does not start with `ps`
(ASCII case folding, comparing uppercased characters, models
`re.IGNORECASE`). -/
def stripCI : List Char → List Char → Option (List Char)
  | [], l => some l
  | _ :: _, [] => none
  | p :: ps, c :: cs => if c.toUpper = p.toUpper then stripCI ps cs else none

/-- Character class `[IVXLCD]` under `re.IGNORECASE`. -/
def isRomanChar (c : Char) : Bool :=
  decide (c.toUpper = 'I' ∨ c.toUpper = 'V' ∨ c.toUpper = 'X' ∨
    c.toUpper = 'L' ∨ c.toUpper = 'C' ∨ c.toUpper = 'D')

/-- The anchored match of `r'^SECTION\s*[IVXLCD]+\s*:?'` with `IGNORECASE`:
returns the text after the matched prefix, or `none` when there is no match.
All pieces are greedy and over disjoint character classes, so the scan is
deterministic and needs no backtracking. -/
def sectionPrefixMatch (l : List Char) : Option (List Char) :=
  match stripCI sectionWord l with
  | none => none
  | some r1 =>
    let r2 := r1.dropWhile Char.isWhitespace
    if r2.takeWhile isRomanChar = [] then none
    else
      let r3 := (r2.dropWhile isRomanChar).dropWhile Char.isWhitespace
      match r3 with
      | ':' :: r4 => some r4
      | _ => some r3

/-- `remove_section_prefix` from `src/app.py` (lines 619-620):
`re.sub(r'^SECTION\s*[IVXLCD]+\s*:?', '', txt, flags=re.IGNORECASE).strip()`.
The pattern is anchored, so at most one substitution happens, at position
0. -/
def removeSectionPrefix (l : List Char) : List Char :=
  pyStrip (match sectionPrefixMatch l with
    | some r => r
    | none => l)

/-! ### The classified entry rows (`src/app.py` lines 614-629) -/

/-- The `Type` column values. -/
inductive RowType
  | Section
  | Subject
deriving DecidableEq

/-- One element of `toc_data`: stripped link text plus 1-based target page. -/
structure RawEntry where
  text : List Char
  page : Int
deriving DecidableEq

/-- One element of `entries` (lines 622-629): the classified row. -/
structure Entry where
  rowType : RowType
  text : List Char
  cleanedText : List Char
  startingPage : Int
deriving DecidableEq

/-- Lines 614-629: `clean_text` every link text, classify it, and compute
the `Cleaned Text` column. -/
def classifyRaw (r : RawEntry) : Entry :=
  let t := clean_text r.text
  { rowType := if isSectionText t then .Section else .Subject
    text := t
    cleanedText := removeSectionPrefix t
    startingPage := r.page }

/-! ### Hierarchy / page-range resolution (`src/app.py` lines 630-694) -/

/-- One element of `toc_entries`.  `rowType` models the `"Type"` key;
the other fields keep the Python dictionary key names. -/
structure TocEntry where
  rowType : RowType
  subject : List Char
  cleaned_subject : List Char
  starting_page_number : Int
  ending_page_number : Option Int
  subject_section : Option (List Char)
  section_range : Option String
deriving DecidableEq

/-- Rendering of an optional int inside a Python f-string (`None` prints as
the word `None`). -/
def optIntRepr : Option Int → String
  | some n => toString n
  | none => "None"

/-- The f-string `f"{a}-{b}"` used for `section_range`. -/
def fmtRange (a : Option Int) (b : Int) : String :=
  optIntRepr a ++ "-" ++ toString b

/-- The row appended for a `Section` entry (lines 648-656); a Section is its
own section anchor. -/
def mkSectionRow (e : Entry) : TocEntry :=
  { rowType := e.rowType
    subject := e.text
    cleaned_subject := e.cleanedText
    starting_page_number := e.startingPage
    ending_page_number := none
    subject_section := some e.text
    section_range := none }

/-- The row appended for a `Subject` entry (lines 661-669), tagged with the
currently open section (or `none`). -/
def mkSubjectRow (e : Entry) (currentSection : Option (List Char)) : TocEntry :=
  { rowType := e.rowType
    subject := e.text
    cleaned_subject := e.cleanedText
    starting_page_number := e.startingPage
    ending_page_number := none
    subject_section := currentSection
    section_range := none }

/-- Lines 658-660: if the last appended row has an unresolved end page, set
it to `max(prev_start, entry_start - 1)`. -/
def closePrev (p : Int) : List TocEntry → List TocEntry
  | [] => []
  | [e] =>
    [if e.ending_page_number = none then
      { e with ending_page_number := some (max e.starting_page_number (p - 1)) }
    else e]
  | e :: f :: rest => e :: closePrev p (f :: rest)

/-- Lines 637-640: `last_i = same_sec[-1]`, then close that single row at
`entry_start - 1` if it is still open.  (The subsequent loop over `same_sec`
repeats this assignment for every open row, so this step is subsumed by
`markAll`; it is kept for fidelity to the source.) -/
def markLast (cs : List Char) (p : Int) : List TocEntry → List TocEntry
  | [] => []
  | e :: rest =>
    if ∃ x ∈ rest, x.subject_section = some cs then e :: markLast cs p rest
    else if e.subject_section = some cs then
      (if e.ending_page_number = none then
        { e with ending_page_number := some (p - 1) }
      else e) :: rest
    else e :: rest

/-- Lines 641-645: for every row of the section being closed, fill an
unresolved end page with `entry_start - 1` and an unset `section_range` with
`f"{current_section_start}-{entry_start - 1}"`. -/
def markAll (cs : List Char) (p : Int) (css : Option Int) (l : List TocEntry) :
    List TocEntry :=
  l.map fun e =>
    if e.subject_section = some cs then
      { e with
        ending_page_number :=
          match e.ending_page_number with
          | none => some (p - 1)
          | some v => some v
        section_range :=
          match e.section_range with
          | none => some (fmtRange css (p - 1))
          | some s => some s }
    else e

/-- The loop state of lines 630-632: the accumulated `toc_entries` together
with `current_section` and `current_section_start`. -/
structure ResState where
  toc : List TocEntry
  currentSection : Option (List Char)
  currentSectionStart : Option Int
deriving DecidableEq

/-- One iteration of the loop of lines 633-669. -/
def resolveStep (st : ResState) (e : Entry) : ResState :=
  match e.rowType with
  | .Section =>
    let toc1 :=
      match st.currentSection with
      | none => st.toc
      | some cs =>
        markAll cs e.startingPage st.currentSectionStart
          (markLast cs e.startingPage st.toc)
    { toc := toc1 ++ [mkSectionRow e]
      currentSection := some e.text
      currentSectionStart := some e.startingPage }
  | .Subject =>
    { st with toc := closePrev e.startingPage st.toc ++ [mkSubjectRow e st.currentSection] }

/-- Lines 676-677: set the last row's end page to the document page count if
still unresolved. -/
def closeLastEnd (pc : Int) : List TocEntry → List TocEntry
  | [] => []
  | [e] =>
    [if e.ending_page_number = none then { e with ending_page_number := some pc } else e]
  | e :: f :: rest => e :: closeLastEnd pc (f :: rest)

/-- Lines 670-684: the close-out after the loop.  `last_sec` is the
`subject_section` of the last row; every row of that section gets an
unresolved end page set to the page count and an unset `section_range` set
to `f"{current_section_start}-{page_count}"`. -/
def closeOut (pc : Int) (css : Option Int) (l : List TocEntry) : List TocEntry :=
  match l.getLast? with
  | none => l
  | some last =>
    (closeLastEnd pc l).map fun e =>
      if e.subject_section = last.subject_section then
        { e with
          ending_page_number :=
            match e.ending_page_number with
            | none => some pc
            | some v => some v
          section_range :=
            match e.section_range with
            | none => some (fmtRange css pc)
            | some s => some s }
      else e

/-- The whole resolution pass of lines 630-684 (`doc_page_count` is passed
in; in the source it is `doc.page_count` with fallback `9999`). -/
def resolve (entries : List Entry) (pc : Int) : List TocEntry :=
  let st := entries.foldl resolveStep ⟨[], none, none⟩
  closeOut pc st.currentSectionStart st.toc

/-! ### TOC locator and link scan (`src/app.py` lines 569-613)

A caught Python exception is modelled as an `Except.error ()` value of the
corresponding library call. -/

/-- The `fitz` link kinds relevant to line 587. -/
inductive LinkKind
  | goto
  | named
  | uri
  | other
deriving DecidableEq

/-- One element of `page.get_links()`.  `data` is the result of the body of
the per-link `try` of lines 591-594: building the rectangle and clipping the
page text to it (the raw clip text, before `.strip()`), together with
`link.get("page", -1)`. -/
structure RawLink where
  kind : LinkKind
  data : Except Unit (List Char × Int)

/-- One page of the opened document: the result of
`load_page(n).get_text("text")` and of `load_page(n).get_links()`. -/
structure PageView where
  text : Except Unit (List Char)
  links : Except Unit (List RawLink)

/-- Line 574: the test for a contents page. -/
def tocMarker (t : List Char) : Bool :=
  containsSub ("Contents".toList) t || containsSub ("TABLE OF CONTENTS".toList) t

/-- Lines 570-578 loop body: a page hits when its text extracts successfully
and contains a marker; an extraction failure is swallowed (`except:
continue`). -/
def pageHit (p : PageView) : Bool :=
  match p.text with
  | .error _ => false
  | .ok t => tocMarker t

/-- Scan the given pages in order, returning the index (offset by `i`) of
the first hit. -/
def locAux : List PageView → Nat → Option Nat
  | [], _ => none
  | p :: rest, i => if pageHit p then some i else locAux rest (i + 1)

/-- Lines 569-581: scan pages `0 .. min(6, page_count) - 1` for the first
contents page. -/
def locate (pages : List PageView) : Option Nat :=
  locAux (pages.take (min 6 pages.length)) 0

/-- Line 587: keep only `LINK_GOTO` and `LINK_NAMED` links. -/
def keepKind : LinkKind → Bool
  | .goto => true
  | .named => true
  | _ => false

/-- Lines 590-601: process each link of a page.  A per-link failure is
skipped (`except: continue`); otherwise the clip text is stripped and the
entry kept when the text is non-empty and the 1-based target page is
positive. -/
def collectLinks : List RawLink → List RawEntry
  | [] => []
  | lk :: rest =>
    match lk.data with
    | .error _ => collectLinks rest
    | .ok (txt, pg) =>
      let t := pyStrip txt
      if t ≠ [] ∧ pg + 1 > 0 then
        { text := t, page := pg + 1 } :: collectLinks rest
      else collectLinks rest

/-- The continuation heuristic of line 609: the next page still belongs to
the TOC when its text contains one of the keyword markers. -/
def nextPageKeeps (t : List Char) : Bool :=
  containsSub ("SECTION".toList) t || containsSub ("....".toList) t ||
    containsSub ("INTRODUCTION".toList) t

/-- The `while` loop of lines 584-610, over the pages from the located TOC
page onward.  A failure of `load_page`/`get_links` breaks the loop
(lines 585-589), as does a text-extraction failure or a missing keyword on
the following page (lines 605-610); entries collected so far are kept. -/
def scanPages : List PageView → List RawEntry
  | [] => []
  | p :: rest =>
    match p.links with
    | .error _ => []
    | .ok ls =>
      collectLinks (ls.filter fun l => keepKind l.kind) ++
        match rest with
        | [] => []
        | nxt :: _ =>
          match nxt.text with
          | .error _ => []
          | .ok t => if nextPageKeeps t then scanPages rest else []

/-- `extract_table_of_contents` (lines 563-694) for an opened document,
modelled as its list of pages: locate the TOC page, collect raw link
entries from there onward, return `none` when none were collected
(line 611-613), otherwise classify and resolve. -/
def extractTableOfContents (pages : List PageView) : Option (List TocEntry) :=
  match locate pages with
  | none => none
  | some i =>
    let tocData := scanPages (pages.drop i)
    if tocData = [] then none
    else some (resolve (tocData.map classifyRaw) (pages.length : Int))

/-! ### Checkbox selection logic (`src/app.py` lines 723-732, 843-889) -/

/-- Update one `st.session_state` key. -/
def setKey (st : String → Bool) (k : String) (v : Bool) : String → Bool :=
  fun k2 => if k2 = k then v else st k2

/-- `on_parent_change` (lines 723-726): read the parent's flag and propagate
it to every child key. -/
def on_parent_change (st : String → Bool) (parentKey : String)
    (childKeys : List String) : String → Bool :=
  let newVal := st parentKey
  childKeys.foldl (fun s ck => setKey s ck newVal) st

/-- `on_child_change` (lines 728-732): the parent's flag becomes true iff
every child flag is true. -/
def on_child_change (st : String → Bool) (parentKey : String)
    (childKeys : List String) : String → Bool :=
  if childKeys.all (fun ck => st ck) then setKey st parentKey true
  else setKey st parentKey false

/-- A parent (Section) checkbox toggle: the widget writes the new value to
the section's own key, then runs `on_parent_change` (lines 850-859). -/
def toggleParent (st : String → Bool) (parentKey : String)
    (childKeys : List String) (v : Bool) : String → Bool :=
  on_parent_change (setKey st parentKey v) parentKey childKeys

/-- A child (Subject) checkbox toggle: the widget writes the new value to
the subject's own key, then runs `on_child_change` when the subject has a
parent section, and nothing otherwise (`on_change=None`, lines 860-869). -/
def toggleChild (st : String → Bool) (childKey : String)
    (parent : Option (String × List String)) (v : Bool) : String → Bool :=
  match parent with
  | some (pk, cks) => on_child_change (setKey st childKey v) pk cks
  | none => setKey st childKey v

/-! ### Output filename generation (`src/app.py` lines 897-907) -/

/-- Line 903: `row["cleaned_subject"][:50].replace(" ", "").replace("/",
"").replace("\\", "_")`. -/
def sanitizeName (cleaned : List Char) : List Char :=
  ((((cleaned.take 50).filter fun c => c ≠ ' ').filter fun c => c ≠ '/').map
    fun c => if c = '\\' then '_' else c)

/-- Lines 903-905: the filename stem, falling back to
`f"section_{start_page+1}"` (`start_page` is the zero-based start). -/
def filenameStem (cleaned : List Char) (startPage : Int) : List Char :=
  let cleanSub := sanitizeName cleaned
  if cleanSub = [] then ("section_" ++ toString (startPage + 1)).toList
  else cleanSub

/-- Line 906: `fname = clean_sub + ".pdf"`. -/
def filename (cleaned : List Char) (startPage : Int) : List Char :=
  filenameStem cleaned startPage ++ (".pdf").toList

/-! ### Concrete inputs used by counterexamples and witnesses -/

/-- The raw entries of the spec's scenario: `[("SECTION I", 3),
("Overview", 4), ("Risks", 7), ("SECTION II", 10)]`. -/
def scenarioRaw : List RawEntry :=
  [⟨("SECTION I").toList, 3⟩, ⟨("Overview").toList, 4⟩,
   ⟨("Risks").toList, 7⟩, ⟨("SECTION II").toList, 10⟩]

/-- The scenario entries after classification. -/
def scenarioEntries : List Entry := scenarioRaw.map classifyRaw

/-- Two Section entries sharing a start page (a malformed listing). -/
def twoSectionsEntries : List Entry :=
  ([⟨("SECTION I").toList, 5⟩, ⟨("SECTION II").toList, 5⟩] : List RawEntry).map classifyRaw

/-- A Subject appearing before any Section, immediately followed by a
Section. -/
def strayEntries : List Entry :=
  ([⟨("Intro").toList, 2⟩, ⟨("SECTION I").toList, 5⟩] : List RawEntry).map classifyRaw

/-- Decidable form of "the resolved range is not inverted". -/
def rangeOk (e : TocEntry) : Bool :=
  match e.ending_page_number with
  | none => true
  | some v => e.starting_page_number ≤ v

/-! ### Claim C1: the spec's resolution scenario -/

/-- Claim C1, counterexample: on the scenario input with document length 15,
the resolved start/end page pairs are NOT `3-9, 4-6, 7-9, 10-15` as the
claim states: SECTION I's own resolved pair is `(3, 3)` (its end page was
closed by the first Subject at `max(3, 4-1) = 3`), and only its
`section_range` string reads `"3-9"`. -/
theorem C1_counterexample :
    ¬ ((resolve scenarioEntries 15).map
        (fun e => (e.starting_page_number, e.ending_page_number)) =
      [(3, some 9), (4, some 6), (7, some 9), (10, some 15)]) := by
  decide

/-- Claim C1 (corrected): on the scenario input with document length 15 the
resolution pass yields own ranges SECTION I = 3-3 (with section range
"3-9"), Overview = 4-6, Risks = 7-9, SECTION II = 10-15 (section range
"10-15"); the entries under SECTION I carry section range "3-9". -/
theorem C1_scenario_resolution :
    (resolve scenarioEntries 15).map
      (fun e => (e.starting_page_number, e.ending_page_number, e.section_range)) =
    [(3, some 3, some ("3-9")), (4, some 6, some ("3-9")),
     (7, some 9, some ("3-9")), (10, some 15, some ("10-15"))] := by
  decide

/-! ### Claim C2, counterexample -/

/-- Claim C2, counterexample: two Section entries sharing start page 5 give
the first section end page `5 - 1 = 4 < 5`: the Section-closing branch
(lines 637-645) has no `max` clamp, so an inverted range is produced. -/
theorem C2_counterexample :
    ¬ (∀ e ∈ resolve twoSectionsEntries 15, rangeOk e = true) := by
  decide

/-! ### Claim C3, counterexample -/

/-- Claim C3, counterexample: a Subject before any Section that is
immediately followed by a Section keeps `ending_page_number = none` after
the full pass: the Section branch only closes rows of an open section
(there is none), and the close-out only touches rows whose
`subject_section` equals the last row's. -/
theorem C3_counterexample :
    ¬ (∀ e ∈ resolve strayEntries 15, e.ending_page_number ≠ none) := by
  decide

/-! ### Claim C6: `clean_text` -/

/-- Claim C6, counterexample: `clean_text` does NOT remove everything from
the first dot run onward: `.` in the regex does not cross newlines, so on
`"A..B\nC"` the substitution removes only `..B` and the text `C` on the
next line survives. -/
theorem C6_counterexample :
    ¬ (clean_text (("A..B").toList ++ '\n' :: ("C").toList) =
       specCleanText (("A..B").toList ++ '\n' :: ("C").toList)) := by
  decide

/-! ### Claim C4: the Subject-branch closing rule -/

/-- Sugar for "the row with its end page resolved to `v`". -/
def withEnd (e : TocEntry) (v : Int) : TocEntry :=
  { e with ending_page_number := some v }

theorem closePrev_cons (p : Int) (a : TocEntry) (t : List TocEntry) (h : t ≠ []) :
    closePrev p (a :: t) = a :: closePrev p t := by
  cases t with
  | nil => exact absurd rfl h
  | cons f r => rfl

theorem closePrev_append (p : Int) (l : List TocEntry) (e : TocEntry) :
    closePrev p (l ++ [e]) =
      l ++ [if e.ending_page_number = none then
        withEnd e (max e.starting_page_number (p - 1)) else e] := by
  induction l with
  | nil => rfl
  | cons a l ih =>
    rw [List.cons_append, closePrev_cons _ _ _ (by simp), ih, List.cons_append]

/-- Claim C4: processing a Subject entry `E` when the immediately preceding
appended row is still open sets that row's end page to
`max(its own start, E.start - 1)` and then appends `E`'s row; the `max`
keeps the closed range non-inverted (`start ≤ end`) even when the two
entries share a start page. -/
theorem C4_subject_closes_previous (l : List TocEntry) (e : TocEntry)
    (cs : Option (List Char)) (css : Option Int) (E : Entry)
    (hT : E.rowType = .Subject) (hE : e.ending_page_number = none) :
    (resolveStep ⟨l ++ [e], cs, css⟩ E).toc =
      (l ++ [withEnd e (max e.starting_page_number (E.startingPage - 1))]) ++
        [mkSubjectRow E cs] ∧
    e.starting_page_number ≤ max e.starting_page_number (E.startingPage - 1) := by
  constructor
  · simp only [resolveStep, hT, closePrev_append, if_pos hE]
  · exact le_max_left _ _

/-- The toc row opened for `SECTION I` of the scenario. -/
def sec1Row : TocEntry := mkSectionRow (classifyRaw ⟨("SECTION I").toList, 3⟩)

/-- The classified `("Overview", 4)` entry of the scenario. -/
def overviewEntry : Entry := classifyRaw ⟨("Overview").toList, 4⟩

/-- Claim C4, witness: at the scenario's first two rows (SECTION I open at
page 3, Subject "Overview" at page 4) the open row is closed at
`max(3, 3) = 3`. -/
theorem C4_witness :
    (resolveStep ⟨[] ++ [sec1Row], none, none⟩ overviewEntry).toc =
      ([] ++ [withEnd sec1Row
        (max sec1Row.starting_page_number (overviewEntry.startingPage - 1))]) ++
        [mkSubjectRow overviewEntry none] ∧
    sec1Row.starting_page_number ≤
      max sec1Row.starting_page_number (overviewEntry.startingPage - 1) :=
  C4_subject_closes_previous [] sec1Row none none overviewEntry (by decide) (by decide)

/-! ### Claim C7: selection toggling -/

theorem foldl_setKey (cs : List String) (s0 : String → Bool) (v : Bool) (k : String) :
    (cs.foldl (fun s ck => setKey s ck v) s0) k = if k ∈ cs then v else s0 k := by
  induction cs generalizing s0 with
  | nil => simp
  | cons c cs ih =>
    rw [List.foldl_cons, ih]
    by_cases hin : k ∈ cs
    · simp [hin]
    · by_cases hc : k = c <;> simp [hin, hc, setKey]

/-- Claim C7: toggling a Section to `v` sets its own flag and every child
flag to `v`; toggling a Subject with a parent sets the Subject's flag to
`v` and recomputes the parent's flag as the conjunction of all child flags
(read after the Subject's update); a Subject with no parent toggles
independently and changes no other key. -/
theorem C7_selection_consistency (st : String → Bool) (p c pk : String)
    (cs : List String) (v : Bool) (hpc : pk ≠ c) :
    ((toggleParent st p cs v) p = v ∧ ∀ k ∈ cs, (toggleParent st p cs v) k = v) ∧
    ((toggleChild st c (some (pk, cs)) v) c = v ∧
      (toggleChild st c (some (pk, cs)) v) pk = cs.all (fun ck => setKey st c v ck)) ∧
    ((toggleChild st c none v) c = v ∧
      ∀ k, k ≠ c → (toggleChild st c none v) k = st k) := by
  refine ⟨⟨?_, fun k hk => ?_⟩, ⟨?_, ?_⟩, ?_, fun k hk => ?_⟩
  · simp only [toggleParent, on_parent_change]
    rw [foldl_setKey]
    by_cases h : p ∈ cs <;> simp [h, setKey]
  · simp only [toggleParent, on_parent_change]
    rw [foldl_setKey]
    simp [hk, setKey]
  · simp only [toggleChild, on_child_change]
    rcases hb : cs.all (fun ck => setKey st c v ck) <;>
      simp [hb, setKey, Ne.symm hpc]
  · simp only [toggleChild, on_child_change]
    rcases hb : cs.all (fun ck => setKey st c v ck) <;> simp [hb, setKey]
  · simp [toggleChild, setKey]
  · simp [toggleChild, setKey, hk]

/-- Claim C7, witness: a concrete two-child section; toggling the parent on
propagates, toggling one child off recomputes the parent from the children. -/
theorem C7_witness :
    ((toggleParent (fun _ => false) ("toc_0") [("toc_1"), ("toc_2")] true) ("toc_0") = true ∧
      ∀ k ∈ [("toc_1"), ("toc_2")],
        (toggleParent (fun _ => false) ("toc_0") [("toc_1"), ("toc_2")] true) k = true) ∧
    ((toggleChild (fun _ => false) ("toc_1") (some (("toc_0"), [("toc_1"), ("toc_2")])) true)
        ("toc_1") = true ∧
      (toggleChild (fun _ => false) ("toc_1") (some (("toc_0"), [("toc_1"), ("toc_2")])) true)
        ("toc_0") =
        [("toc_1"), ("toc_2")].all (fun ck => setKey (fun _ => false) ("toc_1") true ck)) ∧
    ((toggleChild (fun _ => false) ("toc_1") none true) ("toc_1") = true ∧
      ∀ k, k ≠ ("toc_1") →
        (toggleChild (fun _ => false) ("toc_1") none true) k = (fun _ => false) k) :=
  C7_selection_consistency (fun _ => false) ("toc_0") ("toc_1") ("toc_0")
    [("toc_1"), ("toc_2")] true (by decide)

/-! ### Claim C8: generated filenames -/

/-- Claim C8: the filename stem is the first 50 characters of the cleaned
text with spaces and `/` removed and `\` replaced by `_` (so it contains
none of the three path-unsafe characters), and it falls back to
`section_{start+1}` (1-based start page, `start` being the zero-based
start) exactly when that sanitized text is empty; the emitted file name is
the stem plus `".pdf"`. -/
theorem C8_filename_generation (cleaned : List Char) (sp : Int) :
    (sanitizeName cleaned ≠ [] →
      filenameStem cleaned sp = sanitizeName cleaned ∧
      ∀ ch ∈ filenameStem cleaned sp, ch ≠ ' ' ∧ ch ≠ '/' ∧ ch ≠ '\\') ∧
    (sanitizeName cleaned = [] →
      filenameStem cleaned sp = ("section_" ++ toString (sp + 1)).toList) ∧
    filename cleaned sp = filenameStem cleaned sp ++ (".pdf").toList := by
  refine ⟨fun h => ⟨by rw [filenameStem, if_neg h], fun ch hch => ?_⟩,
    fun h => by rw [filenameStem, if_pos h], rfl⟩
  rw [filenameStem, if_neg h] at hch
  rw [sanitizeName] at hch
  obtain ⟨d, hd, rfl⟩ := List.mem_map.mp hch
  obtain ⟨hd2, hslash⟩ := List.mem_filter.mp hd
  obtain ⟨-, hspace⟩ := List.mem_filter.mp hd2
  by_cases hb : d = '\\' <;> simp_all

/-! ### Claim C10: Subject rows are untouched by the prefix stripper -/

theorem stripCI_startsWith : ∀ (ps l r : List Char), stripCI ps l = some r →
    startsWith (ps.map Char.toUpper) (l.map Char.toUpper) = true := by
  intro ps
  induction ps with
  | nil => intro l r _; rfl
  | cons p ps ih =>
    intro l r h
    cases l with
    | nil => exact absurd h (by simp [stripCI])
    | cons c cs =>
      rw [stripCI] at h
      split_ifs at h with hc
      rw [List.map_cons, List.map_cons, startsWith, Bool.and_eq_true]
      exact ⟨decide_eq_true hc.symm, ih cs r h⟩

theorem startsWith_containsSub (pat l : List Char) (h : startsWith pat l = true) :
    containsSub pat l = true := by
  cases l with
  | nil => exact h
  | cons c rest => rw [containsSub, h, Bool.true_or]

theorem sectionWord_upper : sectionWord.map Char.toUpper = sectionWord := by decide

/-- A successful match of the `SECTION <roman>` prefix pattern forces the
classifier to see the word `SECTION`. -/
theorem sectionText_of_prefixMatch (l r : List Char)
    (h : sectionPrefixMatch l = some r) : isSectionText l = true := by
  rw [sectionPrefixMatch] at h
  cases hs : stripCI sectionWord l with
  | none => rw [hs] at h; exact absurd h (by simp)
  | some r1 =>
    have h1 := stripCI_startsWith sectionWord l r1 hs
    rw [sectionWord_upper] at h1
    rw [isSectionText, pyUpper]
    exact startsWith_containsSub _ _ h1

/-- Claim C10: a row the classifier marks `Subject` is left unchanged (up
to trimming) by `remove_section_prefix`, because any text the prefix
pattern matches contains `SECTION` case-insensitively and would have been
classified `Section`; so stripping every row is observably the same as
stripping only Section rows. -/
theorem C10_subject_rows_unchanged (r : RawEntry)
    (h : (classifyRaw r).rowType = .Subject) :
    (classifyRaw r).cleanedText = pyStrip ((classifyRaw r).text) := by
  by_cases hs : isSectionText (clean_text r.text)
  · have hsec : (classifyRaw r).rowType = .Section := by simp [classifyRaw, hs]
    rw [hsec] at h
    exact absurd h (by decide)
  · show removeSectionPrefix (clean_text r.text) = pyStrip (clean_text r.text)
    rw [removeSectionPrefix]
    cases hm : sectionPrefixMatch (clean_text r.text) with
    | some r2 => exact absurd (sectionText_of_prefixMatch _ _ hm) hs
    | none => rfl

/-- The raw `("Overview", 4)` pair. -/
def overviewRaw : RawEntry := ⟨("Overview").toList, 4⟩

/-- Claim C10, witness: the Subject row `("Overview", 4)`. -/
theorem C10_witness :
    (classifyRaw overviewRaw).cleanedText = pyStrip ((classifyRaw overviewRaw).text) :=
  C10_subject_rows_unchanged overviewRaw (by decide)

/-! ### Claim C5: the TOC locator -/

/-- Whether the page at index `j` (if any) hits the contents-page test. -/
def windowHit : List PageView → Nat → Bool
  | [], _ => false
  | p :: _, 0 => pageHit p
  | _ :: rest, j + 1 => windowHit rest j

theorem locAux_some_iff : ∀ (l : List PageView) (k i : Nat),
    locAux l k = some i ↔
      ∃ j, i = k + j ∧ windowHit l j = true ∧ ∀ m < j, windowHit l m = false := by
  intro l
  induction l with
  | nil =>
    intro k i
    constructor
    · intro h; exact absurd h (by simp [locAux])
    · rintro ⟨j, -, hj, -⟩; exact absurd hj (by simp [windowHit])
  | cons p rest ih =>
    intro k i
    rw [locAux]
    by_cases hp : pageHit p = true
    · rw [if_pos hp]
      constructor
      · intro h
        refine ⟨0, by cases h; omega, by rw [windowHit]; exact hp, fun m hm => ?_⟩
        exact absurd hm (Nat.not_lt_zero m)
      · rintro ⟨j, rfl, hj, hmin⟩
        cases j with
        | zero => rfl
        | succ j' => exact absurd hp (by simpa [windowHit] using hmin 0 (Nat.succ_pos j'))
    · rw [if_neg hp, ih]
      constructor
      · rintro ⟨j, rfl, hj, hmin⟩
        refine ⟨j + 1, by omega, hj, fun m hm => ?_⟩
        cases m with
        | zero =>
          rw [windowHit]
          exact Bool.not_eq_true _ ▸ hp
        | succ m' => exact hmin m' (by omega)
      · rintro ⟨j, rfl, hj, hmin⟩
        cases j with
        | zero => exact absurd hj hp
        | succ j' =>
          exact ⟨j', by omega, hj, fun m hm => hmin (m + 1) (by omega)⟩

theorem locAux_none_iff : ∀ (l : List PageView) (k : Nat),
    locAux l k = none ↔ ∀ j < l.length, windowHit l j = false := by
  intro l
  induction l with
  | nil => intro k; simp [locAux]
  | cons p rest ih =>
    intro k
    rw [locAux]
    by_cases hp : pageHit p = true
    · rw [if_pos hp]
      simp only [List.length_cons]
      constructor
      · intro h; exact absurd h (by simp)
      · intro h; exact absurd (h 0 (Nat.succ_pos _)) (by simp [windowHit, hp])
    · rw [if_neg hp, ih]
      constructor
      · intro h j hj
        cases j with
        | zero => rw [windowHit]; exact Bool.not_eq_true _ ▸ hp
        | succ j' => exact h j' (by simpa using hj)
      · intro h j hj
        exact h (j + 1) (by simpa using hj)

theorem windowHit_take : ∀ (l : List PageView) (n j : Nat),
    windowHit (l.take n) j = (decide (j < n) && windowHit l j) := by
  intro l
  induction l with
  | nil => intro n j; simp [windowHit]
  | cons p rest ih =>
    intro n j
    cases n with
    | zero => simp [windowHit]
    | succ n' =>
      cases j with
      | zero => simp [windowHit]
      | succ j' =>
        rw [List.take_succ_cons, windowHit, windowHit, ih]
        congr 1
        simp [Nat.succ_lt_succ_iff]

/-- Claim C5: the locator scans pages `0 .. min(6, pageCount) - 1` in order
and returns the first index whose text hits the contents test (`"Contents"`
or `"TABLE OF CONTENTS"` as a literal substring); it returns `none` exactly
when no page of the window hits; a page whose text extraction fails never
hits and the scan simply moves to the next page. -/
theorem C5_locator_first_hit (pages : List PageView) :
    (∀ i, locate pages = some i ↔
      i < min 6 pages.length ∧ windowHit pages i = true ∧
        ∀ j < i, windowHit pages j = false) ∧
    (locate pages = none ↔ ∀ j < min 6 pages.length, windowHit pages j = false) ∧
    (∀ (p : PageView) (rest : List PageView) (k : Nat), p.text = Except.error () →
      locAux (p :: rest) k = locAux rest (k + 1)) := by
  have hn : (pages.take (min 6 pages.length)).length = min 6 pages.length := by
    rw [List.length_take]
    exact Nat.min_eq_left (Nat.min_le_right 6 pages.length)
  have hwt : ∀ j, j < min 6 pages.length →
      windowHit (pages.take (min 6 pages.length)) j = windowHit pages j := by
    intro j hj
    rw [windowHit_take, decide_eq_true hj, Bool.true_and]
  have hwt2 : ∀ j, windowHit (pages.take (min 6 pages.length)) j = true →
      j < min 6 pages.length ∧ windowHit pages j = true := by
    intro j h
    rw [windowHit_take, Bool.and_eq_true, decide_eq_true_eq] at h
    exact h
  refine ⟨fun i => ?_, ?_, fun p rest k hp => ?_⟩
  · rw [locate, locAux_some_iff]
    constructor
    · rintro ⟨j, rfl, hj, hmin⟩
      obtain ⟨hjn, hjh⟩ := hwt2 j hj
      simp only [Nat.zero_add]
      refine ⟨hjn, hjh, fun m hm => ?_⟩
      have hline := hmin m hm
      rwa [hwt m (lt_trans hm hjn)] at hline
    · rintro ⟨hin, hhit, hmin⟩
      refine ⟨i, (Nat.zero_add i).symm, ?_, fun m hm => ?_⟩
      · rw [hwt i hin]; exact hhit
      · rw [hwt m (lt_trans hm hin)]; exact hmin m hm
  · rw [locate, locAux_none_iff, hn]
    constructor
    · intro h j hj
      have hline := h j hj
      rwa [hwt j hj] at hline
    · intro h j hj
      rw [hwt j hj]; exact h j hj
  · rw [locAux]
    have hph : pageHit p = false := by rw [pageHit, hp]
    rw [hph]
    rfl

/-! ### Claim C9: per-page / per-link failures and the no-TOC outcome -/

/-- Claim C9: a per-link extraction failure is skipped and scanning
continues with the remaining links; a per-page link-extraction failure ends
the scan with no entries from that page onward (earlier pages' entries are
kept by `scanPages`'s structure), but still yields a well-defined entry
list rather than aborting; and the operation returns the distinct no-TOC
outcome `none` (not an error or a partial table) whenever the scan collects
zero entries, as well as when no TOC page is located at all. -/
theorem C9_failure_semantics :
    (∀ (lk : RawLink) (rest : List RawLink), lk.data = Except.error () →
      collectLinks (lk :: rest) = collectLinks rest) ∧
    (∀ (p : PageView) (rest : List PageView), p.links = Except.error () →
      scanPages (p :: rest) = []) ∧
    (∀ (pages : List PageView) (i : Nat), locate pages = some i →
      scanPages (pages.drop i) = [] → extractTableOfContents pages = none) ∧
    (∀ pages : List PageView, locate pages = none →
      extractTableOfContents pages = none) := by
  refine ⟨fun lk rest h => ?_, fun p rest h => ?_, fun pages i h1 h2 => ?_,
    fun pages h => ?_⟩
  · rw [collectLinks, h]
  · obtain ⟨ptext, plinks⟩ := p
    change plinks = Except.error () at h
    subst h
    rfl
  · rw [extractTableOfContents, h1]
    simp only [h2]
    rfl
  · rw [extractTableOfContents, h]

/-- A page whose link extraction fails. -/
def badLinksPage : PageView := ⟨Except.ok [], Except.error ()⟩

/-- A contents page with no usable links. -/
def contentsPage : PageView := ⟨Except.ok (("TABLE OF CONTENTS").toList), Except.ok []⟩

/-- Claim C9, witness: a document whose first page is a contents page with
no collectable entries produces the no-TOC outcome, a failing link is
skipped, and a failing page yields no entries. -/
theorem C9_witness :
    collectLinks (⟨LinkKind.goto, Except.error ()⟩ :: []) = collectLinks [] ∧
    scanPages [badLinksPage] = [] ∧
    extractTableOfContents [contentsPage] = none := by
  refine ⟨C9_failure_semantics.1 _ [] rfl, C9_failure_semantics.2.1 _ [] rfl, ?_⟩
  exact C9_failure_semantics.2.2.1 [contentsPage] 0 rfl rfl

/-! ### Claim C2 (amended): no inverted ranges for monotone listings -/

/-- The resolution invariant: every appended row starts no later than `c`
and every already-resolved end page is at or after its row's start. -/
def entryOk (c : Int) (e : TocEntry) : Prop :=
  e.starting_page_number ≤ c ∧
    ∀ v, e.ending_page_number = some v → e.starting_page_number ≤ v

theorem entryOk_mono {c d : Int} (h : c ≤ d) {e : TocEntry} :
    entryOk c e → entryOk d e :=
  fun ⟨h1, h2⟩ => ⟨le_trans h1 h, h2⟩

theorem entryOk_setEnd (e0 : TocEntry) (w c : Int)
    (hs : e0.starting_page_number ≤ c) (hw : e0.starting_page_number ≤ w) :
    entryOk c { e0 with ending_page_number := some w } := by
  refine ⟨hs, fun v hv => ?_⟩
  have hv' : some w = some v := hv
  obtain rfl : w = v := Option.some.inj hv'
  exact hw

theorem entryOk_fill (e0 : TocEntry) (w c : Int) (Y : Option String)
    (hs : e0.starting_page_number ≤ c)
    (hend : ∀ v, e0.ending_page_number = some v → e0.starting_page_number ≤ v)
    (hw : e0.starting_page_number ≤ w) :
    entryOk c
      { e0 with
        ending_page_number :=
          match e0.ending_page_number with
          | none => some w
          | some v => some v
        section_range := Y } := by
  refine ⟨hs, fun v hv => ?_⟩
  cases hE : e0.ending_page_number with
  | none =>
    have hv' : some w = some v := by rw [← hv]; simp only [hE]
    obtain rfl : w = v := Option.some.inj hv'
    exact hw
  | some u =>
    have hv' : some u = some v := by rw [← hv]; simp only [hE]
    obtain rfl : u = v := Option.some.inj hv'
    exact hend u hE

theorem markAll_ok (l : List TocEntry) (cs : List Char) (p : Int)
    (css : Option Int) (c : Int) (h1 : ∀ e ∈ l, entryOk c e) (h2 : c ≤ p - 1) :
    ∀ e ∈ markAll cs p css l, entryOk (p - 1) e := by
  intro e he
  rw [markAll] at he
  obtain ⟨e0, he0, rfl⟩ := List.mem_map.mp he
  obtain ⟨hs, hend⟩ := h1 e0 he0
  by_cases hsec : e0.subject_section = some cs
  · rw [if_pos hsec]
    exact entryOk_fill e0 (p - 1) (p - 1) _ (le_trans hs h2) hend (le_trans hs h2)
  · rw [if_neg hsec]
    exact ⟨le_trans hs h2, hend⟩

theorem markLast_ok (l : List TocEntry) (cs : List Char) (p : Int) (c : Int)
    (h1 : ∀ e ∈ l, entryOk c e) (h2 : c ≤ p - 1) :
    ∀ e ∈ markLast cs p l, entryOk (p - 1) e := by
  induction l with
  | nil => intro e he; exact absurd he (by simp [markLast])
  | cons a t ih =>
    have ha := h1 a (List.mem_cons_self a t)
    have ht : ∀ e ∈ t, entryOk c e := fun e he => h1 e (List.mem_cons_of_mem a he)
    intro e he
    rw [markLast] at he
    split_ifs at he with hany hsec hE
    · rcases List.mem_cons.mp he with rfl | he'
      · exact entryOk_mono h2 ha
      · exact ih ht e he'
    · rcases List.mem_cons.mp he with rfl | he'
      · exact entryOk_setEnd a (p - 1) (p - 1) (le_trans ha.1 h2) (le_trans ha.1 h2)
      · exact entryOk_mono h2 (ht e he')
    · rcases List.mem_cons.mp he with rfl | he'
      · exact entryOk_mono h2 ha
      · exact entryOk_mono h2 (ht e he')
    · rcases List.mem_cons.mp he with rfl | he'
      · exact entryOk_mono h2 ha
      · exact entryOk_mono h2 (ht e he')

theorem closePrev_ok (l : List TocEntry) (p : Int) (c : Int)
    (h1 : ∀ e ∈ l, entryOk c e) : ∀ e ∈ closePrev p l, entryOk c e := by
  induction l with
  | nil => intro e he; exact absurd he (by simp [closePrev])
  | cons a t ih =>
    have ha := h1 a (List.mem_cons_self a t)
    have ht : ∀ e ∈ t, entryOk c e := fun e he => h1 e (List.mem_cons_of_mem a he)
    intro e he
    cases t with
    | nil =>
      rw [closePrev] at he
      rcases List.mem_singleton.mp he with rfl
      split_ifs with hE
      · exact ⟨ha.1, fun v hv => by cases hv; exact le_max_left _ _⟩
      · exact ha
    | cons b t' =>
      rw [closePrev_cons p a (b :: t') (by simp)] at he
      rcases List.mem_cons.mp he with rfl | he'
      · exact ha
      · exact ih ht e he'

theorem closeLastEnd_ok (l : List TocEntry) (pc : Int) (c : Int)
    (h1 : ∀ e ∈ l, entryOk c e) (h2 : c ≤ pc) :
    ∀ e ∈ closeLastEnd pc l, entryOk pc e := by
  induction l with
  | nil => intro e he; exact absurd he (by simp [closeLastEnd])
  | cons a t ih =>
    have ha := h1 a (List.mem_cons_self a t)
    have ht : ∀ e ∈ t, entryOk c e := fun e he => h1 e (List.mem_cons_of_mem a he)
    intro e he
    cases t with
    | nil =>
      rw [closeLastEnd] at he
      rcases List.mem_singleton.mp he with rfl
      split_ifs with hE
      · exact ⟨le_trans ha.1 h2, fun v hv => by cases hv; exact le_trans ha.1 h2⟩
      · exact entryOk_mono h2 ha
    | cons b t' =>
      have hcons : closeLastEnd pc (a :: b :: t') = a :: closeLastEnd pc (b :: t') := rfl
      rw [hcons] at he
      rcases List.mem_cons.mp he with rfl | he'
      · exact entryOk_mono h2 ha
      · exact ih ht e he'

theorem closeOut_ok (l : List TocEntry) (pc : Int) (css : Option Int) (c : Int)
    (h1 : ∀ e ∈ l, entryOk c e) (h2 : c ≤ pc) :
    ∀ e ∈ closeOut pc css l, entryOk pc e := by
  intro e he
  rw [closeOut] at he
  cases hL : l.getLast? with
  | none => rw [hL] at he; exact entryOk_mono h2 (h1 e he)
  | some last =>
    rw [hL] at he
    obtain ⟨e1, he1, rfl⟩ := List.mem_map.mp he
    have hok := closeLastEnd_ok l pc c h1 h2 e1 he1
    by_cases hsec : e1.subject_section = last.subject_section
    · rw [if_pos hsec]
      exact entryOk_fill e1 pc pc _ hok.1 hok.2 hok.1
    · rw [if_neg hsec]
      exact hok

theorem foldResolveOk : ∀ (entries : List Entry) (toc : List TocEntry)
    (cs : Option (List Char)) (css : Option Int) (c pc : Int),
    (∀ e ∈ toc, entryOk c e) →
    List.Pairwise (fun a b : Entry => a.startingPage < b.startingPage) entries →
    (∀ a ∈ entries, c < a.startingPage) →
    (∀ a ∈ entries, a.startingPage ≤ pc) →
    c ≤ pc →
    ∀ e ∈ (entries.foldl resolveStep ⟨toc, cs, css⟩).toc, entryOk pc e := by
  intro entries
  induction entries with
  | nil =>
    intro toc cs css c pc h1 _ _ _ hcpc e he
    rw [List.foldl_nil] at he
    exact entryOk_mono hcpc (h1 e he)
  | cons a rest ih =>
    intro toc cs css c pc h1 hpw hlt hle hcpc
    rw [List.foldl_cons]
    have hca : c < a.startingPage := hlt a (List.mem_cons_self a rest)
    have hstep : ∀ e ∈ (resolveStep ⟨toc, cs, css⟩ a).toc, entryOk a.startingPage e := by
      intro e he
      cases ha : a.rowType with
      | Section =>
        simp only [resolveStep, ha] at he
        rcases List.mem_append.mp he with he' | he'
        · cases cs with
          | none =>
            exact entryOk_mono (le_of_lt hca) (h1 e he')
          | some c0 =>
            have hml := markLast_ok toc c0 a.startingPage c h1 (by omega)
            have hma := markAll_ok (markLast c0 a.startingPage toc) c0 a.startingPage
              css (a.startingPage - 1) hml (by omega)
            exact entryOk_mono (by omega) (hma e he')
        · rcases List.mem_singleton.mp he' with rfl
          exact ⟨le_refl _, fun v hv => by cases hv⟩
      | Subject =>
        simp only [resolveStep, ha] at he
        rcases List.mem_append.mp he with he' | he'
        · exact entryOk_mono (le_of_lt hca) (closePrev_ok toc _ c h1 e he')
        · rcases List.mem_singleton.mp he' with rfl
          exact ⟨le_refl _, fun v hv => by cases hv⟩
    exact ih (resolveStep ⟨toc, cs, css⟩ a).toc
      (resolveStep ⟨toc, cs, css⟩ a).currentSection
      (resolveStep ⟨toc, cs, css⟩ a).currentSectionStart
      a.startingPage pc hstep (List.pairwise_cons.mp hpw).2
      (fun b hb => (List.pairwise_cons.mp hpw).1 b hb)
      (fun b hb => hle b (List.mem_cons_of_mem a hb))
      (hle a (List.mem_cons_self a rest))

/-- Claim C2 (corrected): the no-inverted-ranges invariant holds provided
the entry start pages strictly increase along the listing and the document
page count is at least every start page; without those provisos the
Section-closing branch (which lacks the `max` clamp) can produce an
inverted range. -/
theorem C2_no_inverted_ranges (entries : List Entry) (pc : Int)
    (hsorted : List.Pairwise (fun a b : Entry => a.startingPage < b.startingPage) entries)
    (hpc : ∀ a ∈ entries, a.startingPage ≤ pc) :
    ∀ e ∈ resolve entries pc, rangeOk e = true := by
  intro e he
  rw [resolve] at he
  cases entries with
  | nil =>
    exact absurd he (by simp [closeOut])
  | cons a rest =>
    have hfold := foldResolveOk (a :: rest) [] none none (a.startingPage - 1) pc
      (by intro e he'; exact absurd he' (List.not_mem_nil e))
      hsorted
      (by
        intro b hb
        rcases List.mem_cons.mp hb with rfl | hb'
        · omega
        · have := (List.pairwise_cons.mp hsorted).1 b hb'
          omega)
      hpc
      (by have := hpc a (List.mem_cons_self a rest); omega)
    have hok := closeOut_ok _ pc _ pc hfold (le_refl pc) e he
    rw [rangeOk]
    cases hE : e.ending_page_number with
    | none => rfl
    | some v => simpa using hok.2 v hE

/-- Claim C2, witness: the spec scenario's listing is strictly increasing
and fits in 15 pages; its first resolved row has a valid range. -/
theorem C2_witness :
    rangeOk ((resolve scenarioEntries 15).getD 0
      (mkSectionRow (classifyRaw overviewRaw))) = true :=
  C2_no_inverted_ranges scenarioEntries 15 (by decide) (by decide) _ (by decide)

/-! ### Claim C3 (corrected): which rows end up with a resolved end page -/

/-- During the pass, every row of an already-closed section (assigned, but
not the currently open section) has a resolved end page. -/
def sectionsClosed (st : ResState) : Prop :=
  ∀ e ∈ st.toc, e.subject_section ≠ none → e.subject_section ≠ st.currentSection →
    e.ending_page_number ≠ none

/-- Before any Section has opened, every appended row is unassigned. -/
def allUnassigned (st : ResState) : Prop :=
  st.currentSection = none → ∀ e ∈ st.toc, e.subject_section = none

/-- The last appended row always belongs to the currently open section. -/
def lastRowInCurrent (st : ResState) : Prop :=
  ∀ last, st.toc.getLast? = some last → last.subject_section = st.currentSection

theorem mem_markAll_spec (cs : List Char) (p : Int) (css : Option Int)
    (l : List TocEntry) : ∀ e ∈ markAll cs p css l, ∃ e0 ∈ l,
      e.subject_section = e0.subject_section ∧
      (e0.subject_section = some cs → e.ending_page_number ≠ none) ∧
      (e0.subject_section ≠ some cs → e = e0) := by
  intro e he
  rw [markAll] at he
  obtain ⟨e0, he0, rfl⟩ := List.mem_map.mp he
  by_cases hsec : e0.subject_section = some cs
  · rw [if_pos hsec]
    refine ⟨e0, he0, rfl, fun _ => ?_, fun h => absurd hsec h⟩
    cases hE : e0.ending_page_number <;> simp [hE]
  · rw [if_neg hsec]
    exact ⟨e0, he0, rfl, fun h => absurd h hsec, fun _ => rfl⟩

theorem mem_markLast_spec (cs : List Char) (p : Int) :
    ∀ (l : List TocEntry), ∀ e ∈ markLast cs p l, ∃ e0 ∈ l,
      e.subject_section = e0.subject_section ∧
      (e.ending_page_number = none → e0.ending_page_number = none) ∧
      (e0.subject_section ≠ some cs → e = e0) := by
  intro l
  induction l with
  | nil => intro e he; exact absurd he (by simp [markLast])
  | cons a t ih =>
    intro e he
    rw [markLast] at he
    split_ifs at he with hany hsec hE
    · rcases List.mem_cons.mp he with rfl | he'
      · exact ⟨e, List.mem_cons_self e t, rfl, fun h => h, fun _ => rfl⟩
      · obtain ⟨e0, he0, h⟩ := ih e he'
        exact ⟨e0, List.mem_cons_of_mem a he0, h⟩
    · rcases List.mem_cons.mp he with rfl | he'
      · exact ⟨a, List.mem_cons_self a t, rfl,
          fun h => absurd h (by simp), fun h => absurd hsec h⟩
      · exact ⟨e, List.mem_cons_of_mem a he', rfl, fun h => h, fun _ => rfl⟩
    · rcases List.mem_cons.mp he with rfl | he'
      · exact ⟨e, List.mem_cons_self e t, rfl, fun h => h, fun _ => rfl⟩
      · exact ⟨e, List.mem_cons_of_mem a he', rfl, fun h => h, fun _ => rfl⟩
    · rcases List.mem_cons.mp he with rfl | he'
      · exact ⟨e, List.mem_cons_self e t, rfl, fun h => h, fun _ => rfl⟩
      · exact ⟨e, List.mem_cons_of_mem a he', rfl, fun h => h, fun _ => rfl⟩

theorem mem_closePrev_spec (p : Int) : ∀ (l : List TocEntry), ∀ e ∈ closePrev p l,
    ∃ e0 ∈ l, e.subject_section = e0.subject_section ∧
      (e.ending_page_number = none → e0.ending_page_number = none) := by
  intro l
  induction l with
  | nil => intro e he; exact absurd he (by simp [closePrev])
  | cons a t ih =>
    intro e he
    cases t with
    | nil =>
      rw [closePrev] at he
      rcases List.mem_singleton.mp he with rfl
      split_ifs with hE
      · exact ⟨a, List.mem_cons_self a [], rfl, fun h => absurd h (by simp)⟩
      · exact ⟨a, List.mem_cons_self a [], rfl, fun h => h⟩
    | cons b t' =>
      rw [closePrev_cons p a (b :: t') (by simp)] at he
      rcases List.mem_cons.mp he with rfl | he'
      · exact ⟨e, List.mem_cons_self e _, rfl, fun h => h⟩
      · obtain ⟨e0, he0, h⟩ := ih e he'
        exact ⟨e0, List.mem_cons_of_mem a he0, h⟩

theorem mem_closeLastEnd_spec (pc : Int) : ∀ (l : List TocEntry),
    ∀ e ∈ closeLastEnd pc l,
    ∃ e0 ∈ l, e.subject_section = e0.subject_section ∧
      (e.ending_page_number = none → e0.ending_page_number = none) := by
  intro l
  induction l with
  | nil => intro e he; exact absurd he (by simp [closeLastEnd])
  | cons a t ih =>
    intro e he
    cases t with
    | nil =>
      rw [closeLastEnd] at he
      rcases List.mem_singleton.mp he with rfl
      split_ifs with hE
      · exact ⟨a, List.mem_cons_self a [], rfl, fun h => absurd h (by simp)⟩
      · exact ⟨a, List.mem_cons_self a [], rfl, fun h => h⟩
    | cons b t' =>
      have hcons : closeLastEnd pc (a :: b :: t') = a :: closeLastEnd pc (b :: t') := rfl
      rw [hcons] at he
      rcases List.mem_cons.mp he with rfl | he'
      · exact ⟨e, List.mem_cons_self e _, rfl, fun h => h⟩
      · obtain ⟨e0, he0, h⟩ := ih e he'
        exact ⟨e0, List.mem_cons_of_mem a he0, h⟩

theorem inv_resolveStep (st : ResState) (a : Entry)
    (h1 : sectionsClosed st) (h2 : allUnassigned st) (_h3 : lastRowInCurrent st) :
    sectionsClosed (resolveStep st a) ∧ allUnassigned (resolveStep st a) ∧
      lastRowInCurrent (resolveStep st a) := by
  cases ha : a.rowType with
  | Section =>
    refine ⟨?_, ?_, ?_⟩
    · intro e he hn hne
      simp only [resolveStep, ha] at he hne
      rcases List.mem_append.mp he with he' | he'
      · cases hcs : st.currentSection with
        | none =>
          rw [hcs] at he'
          exact absurd (h2 hcs e he') hn
        | some c0 =>
          rw [hcs] at he'
          obtain ⟨e1, he1, hss1, himp1, hid1⟩ := mem_markAll_spec c0 _ _ _ e he'
          by_cases h0 : e1.subject_section = some c0
          · exact himp1 (hss1 ▸ h0)
          · have hee1 : e = e1 := hid1 (fun h => h0 (hss1 ▸ h))
            subst hee1
            obtain ⟨e0, he0, hss0, hend0, hid0⟩ := mem_markLast_spec c0 _ _ e he1
            have hee0 : e = e0 := hid0 (fun h => h0 (hss0 ▸ h))
            subst hee0
            exact h1 e he0 hn (by rw [hcs]; exact fun h => h0 h)
      · rcases List.mem_singleton.mp he' with rfl
        exact absurd rfl hne
    · intro h
      simp only [resolveStep, ha] at h
      exact absurd h (by simp)
    · intro last hlast
      simp only [resolveStep, ha] at hlast ⊢
      rw [List.getLast?_concat] at hlast
      cases Option.some.inj hlast
      rfl
  | Subject =>
    refine ⟨?_, ?_, ?_⟩
    · intro e he hn hne
      simp only [resolveStep, ha] at he hne
      rcases List.mem_append.mp he with he' | he'
      · obtain ⟨e0, he0, hss0, hend0⟩ := mem_closePrev_spec _ _ e he'
        intro hE
        exact h1 e0 he0 (hss0 ▸ hn) (hss0 ▸ hne) (hend0 hE)
      · rcases List.mem_singleton.mp he' with rfl
        exact absurd rfl hne
    · intro h
      simp only [resolveStep, ha] at h ⊢
      intro e he
      rcases List.mem_append.mp he with he' | he'
      · obtain ⟨e0, he0, hss0, -⟩ := mem_closePrev_spec _ _ e he'
        rw [hss0]
        exact h2 h e0 he0
      · rcases List.mem_singleton.mp he' with rfl
        exact h
    · intro last hlast
      simp only [resolveStep, ha] at hlast ⊢
      rw [List.getLast?_concat] at hlast
      cases Option.some.inj hlast
      rfl

theorem inv_fold : ∀ (entries : List Entry) (st : ResState),
    sectionsClosed st → allUnassigned st → lastRowInCurrent st →
    sectionsClosed (entries.foldl resolveStep st) ∧
      allUnassigned (entries.foldl resolveStep st) ∧
      lastRowInCurrent (entries.foldl resolveStep st) := by
  intro entries
  induction entries with
  | nil => intro st h1 h2 h3; exact ⟨h1, h2, h3⟩
  | cons a rest ih =>
    intro st h1 h2 h3
    rw [List.foldl_cons]
    obtain ⟨g1, g2, g3⟩ := inv_resolveStep st a h1 h2 h3
    exact ih (resolveStep st a) g1 g2 g3

/-- Claim C3 (corrected): after the pass and close-out, every row that was
assigned to a section (non-null `subject_section`) has a non-null end page;
a Subject appearing before any Section (null `subject_section`) can be left
with a null end page when a Section immediately follows it. -/
theorem C3_assigned_rows_closed (entries : List Entry) (pc : Int) (e : TocEntry)
    (he : e ∈ resolve entries pc) (hs : e.subject_section ≠ none) :
    e.ending_page_number ≠ none := by
  obtain ⟨h1, h2, h3⟩ := inv_fold entries ⟨[], none, none⟩
    (fun e he => absurd he (List.not_mem_nil e))
    (fun _ e he => absurd he (List.not_mem_nil e))
    (fun last hlast => by simp at hlast)
  simp only [resolve] at he
  rw [closeOut] at he
  cases hL : (entries.foldl resolveStep ⟨[], none, none⟩).toc.getLast? with
  | none =>
    rw [hL] at he
    rw [List.getLast?_eq_none_iff.mp hL] at he
    exact absurd he (List.not_mem_nil e)
  | some last =>
    rw [hL] at he
    obtain ⟨e1, he1, rfl⟩ := List.mem_map.mp he
    by_cases hsec : e1.subject_section = last.subject_section
    · rw [if_pos hsec]
      cases hE : e1.ending_page_number <;> simp [hE]
    · rw [if_neg hsec] at hs ⊢
      obtain ⟨e0, he0, hss0, hend0⟩ := mem_closeLastEnd_spec pc _ e1 he1
      intro hE
      have hcur := h3 last hL
      exact h1 e0 he0 (hss0 ▸ hs) (by rw [← hss0, ← hcur]; exact hsec) (hend0 hE)

/-- Claim C3, witness: the first resolved row of the spec scenario is
assigned to SECTION I and indeed carries a resolved end page. -/
theorem C3_witness :
    ((resolve scenarioEntries 15).getD 0
      (mkSectionRow (classifyRaw overviewRaw))).ending_page_number ≠ none :=
  C3_assigned_rows_closed scenarioEntries 15 _ (by decide) (by decide)

/-! ### Claim C6 (amended): `clean_text` cuts dot runs per line -/

theorem splitLines_ne_nil : ∀ l : List Char, splitLines l ≠ [] := by
  intro l
  cases l with
  | nil => simp [splitLines]
  | cons c rest =>
    rw [splitLines]
    split_ifs
    · simp
    · cases splitLines rest <;> simp

theorem splitLines_cons_nl (rest : List Char) :
    splitLines ('\n' :: rest) = [] :: splitLines rest := by
  rw [splitLines, if_pos rfl]

theorem splitLines_cons_ne (c : Char) (rest : List Char) (h : c ≠ '\n') :
    ∃ L0 Ls, splitLines rest = L0 :: Ls ∧ splitLines (c :: rest) = (c :: L0) :: Ls := by
  cases hs : splitLines rest with
  | nil => exact absurd hs (splitLines_ne_nil rest)
  | cons L0 Ls =>
    refine ⟨L0, Ls, rfl, ?_⟩
    rw [splitLines, if_neg h, hs]

theorem joinLines_nil_cons (ls : List (List Char)) (h : ls ≠ []) :
    joinLines ([] :: ls) = '\n' :: joinLines ls := by
  cases ls with
  | nil => exact absurd rfl h
  | cons a ls' => rfl

theorem joinLines_cons_head (c : Char) (x : List Char) (ls : List (List Char)) :
    joinLines ((c :: x) :: ls) = c :: joinLines (x :: ls) := by
  cases ls with
  | nil => rfl
  | cons a ls' => rfl

theorem cutLine_two (c d : Char) (rest : List Char) :
    cutLine (c :: d :: rest) =
      if c = '.' ∧ d = '.' then [] else c :: cutLine (d :: rest) := rfl

theorem subA_true_cons (c : Char) (rest : List Char) :
    subDotsAux true (c :: rest) =
      if c = '\n' then '\n' :: subDotsAux false rest else subDotsAux true rest := rfl

theorem subA_false_two (c d : Char) (rest : List Char) :
    subDotsAux false (c :: d :: rest) =
      if c = '.' ∧ d = '.' then subDotsAux true rest
      else c :: subDotsAux false (d :: rest) := rfl

theorem subDots_split : ∀ (n : Nat) (l : List Char), l.length ≤ n →
    subDotsAux false l = joinLines ((splitLines l).map cutLine) ∧
    subDotsAux true l = joinLines ([] :: ((splitLines l).tail.map cutLine)) := by
  intro n
  induction n with
  | zero =>
    intro l hl
    obtain rfl : l = [] := List.eq_nil_of_length_eq_zero (Nat.le_zero.mp hl)
    exact ⟨rfl, rfl⟩
  | succ n ih =>
    intro l hl
    cases l with
    | nil => exact ⟨rfl, rfl⟩
    | cons c rest =>
      have hrest : rest.length ≤ n := by
        rw [List.length_cons] at hl
        omega
      constructor
      · -- scanning mode (`false`): looking for the start of a dot run
        cases rest with
        | nil =>
          by_cases hc : c = '\n'
          · subst hc
            rw [splitLines_cons_nl]
            rfl
          · obtain ⟨L0, Ls, hs1, hs2⟩ := splitLines_cons_ne c [] hc
            cases hs1
            rw [hs2]
            rfl
        | cons d rest' =>
          have hrest' : rest'.length ≤ n := by
            rw [List.length_cons] at hrest
            omega
          rw [subA_false_two]
          by_cases htwo : c = '.' ∧ d = '.'
          · rw [if_pos htwo]
            have hcn : c ≠ '\n' := by rw [htwo.1]; decide
            have hdn : d ≠ '\n' := by rw [htwo.2]; decide
            obtain ⟨L0, Ls, hs1, hs2⟩ := splitLines_cons_ne d rest' hdn
            obtain ⟨L1, Ls1, hs3, hs4⟩ := splitLines_cons_ne c (d :: rest') hcn
            rw [hs2] at hs3
            obtain ⟨rfl, rfl⟩ : L1 = d :: L0 ∧ Ls1 = Ls := by
              cases hs3; exact ⟨rfl, rfl⟩
            rw [hs4, List.map_cons, cutLine_two, if_pos htwo]
            rw [(ih rest' hrest').2, hs1]
            rfl
          · rw [if_neg htwo]
            by_cases hc : c = '\n'
            · subst hc
              rw [splitLines_cons_nl, List.map_cons]
              have hmap : (splitLines (d :: rest')).map cutLine ≠ [] := by
                cases hs : splitLines (d :: rest') with
                | nil => exact absurd hs (splitLines_ne_nil _)
                | cons x xs => simp
              rw [show cutLine ([] : List Char) = [] from rfl]
              rw [joinLines_nil_cons _ hmap, (ih (d :: rest') hrest).1]
            · obtain ⟨L1, Ls1, hs1, hs2⟩ := splitLines_cons_ne c (d :: rest') hc
              rw [hs2, List.map_cons]
              have hcut : cutLine (c :: L1) = c :: cutLine L1 := by
                by_cases hd : d = '\n'
                · subst hd
                  rw [splitLines_cons_nl] at hs1
                  obtain ⟨rfl, rfl⟩ : L1 = [] ∧ Ls1 = splitLines rest' := by
                    cases hs1; exact ⟨rfl, rfl⟩
                  rfl
                · obtain ⟨L0, Ls, hs3, hs4⟩ := splitLines_cons_ne d rest' hd
                  rw [hs4] at hs1
                  obtain ⟨rfl, rfl⟩ : L1 = d :: L0 ∧ Ls1 = Ls := by
                    cases hs1; exact ⟨rfl, rfl⟩
                  rw [cutLine_two, if_neg htwo]
              rw [hcut, joinLines_cons_head]
              have hjoin := (ih (d :: rest') hrest).1
              rw [hjoin, hs1, List.map_cons]
      · -- skipping mode (`true`): consuming `.*` up to the next newline
        rw [subA_true_cons]
        by_cases hc : c = '\n'
        · rw [if_pos hc]
          subst hc
          rw [splitLines_cons_nl]
          have hmap : (splitLines rest).map cutLine ≠ [] := by
            cases hs : splitLines rest with
            | nil => exact absurd hs (splitLines_ne_nil _)
            | cons x xs => simp
          rw [(ih rest hrest).1]
          show _ = joinLines ([] :: (splitLines rest).map cutLine)
          rw [joinLines_nil_cons _ hmap]
        · rw [if_neg hc]
          obtain ⟨L0, Ls, hs1, hs2⟩ := splitLines_cons_ne c rest hc
          rw [hs2, (ih rest hrest).2, hs1]
          rfl

/-- Claim C6 (corrected): `clean_text` removes, within each line, everything
from the first run of two-or-more dots to the end of that line (the regex
`.` does not match a newline and the substitution is global), then trims;
text on subsequent lines survives. -/
theorem C6_clean_text_per_line (l : List Char) :
    clean_text l = perLineCleanText l := by
  rw [clean_text, perLineCleanText, subDots,
    (subDots_split l.length l (le_refl _)).1]

end DRHP
